import Mathlib

/-!
# p4-fusion: the libgit2 front end `GitAPI` (src/p4-fusion/git_api.cc)

A shallow embedding of `GitAPI` and a verification of the resumption
trailer, the staging-area operations and the commit chain.

* `std::string` is a list of characters (`Str`); `size_t` arithmetic is
  arithmetic on `Nat` reduced modulo `2 ^ 64`, and `std::string::npos` is
  `2 ^ 64 - 1`.
* A call either returns or fails; the failures are `exit(error)` of the
  `GIT2` macro, the `std::out_of_range` thrown by `std::string::substr`, and
  undefined behaviour (an invalid iterator range, an unset out-parameter).
* libgit2 and `STDHelpers::Erase` are not part of the two source files.
  `STDHelpers::Erase` is a parameter of the functions that call it; the
  libgit2 calls are modelled on a small repository state (a commit store,
  what `HEAD` resolves to, and the stored index).
* A string handed to libgit2 as a C string (`c_str()`), or read back from
  it, is taken to be the same sequence of characters: the properties of the
  trailer are stated for the message `commitMsg` being the message of the
  tip commit.
-/

namespace P4Fusion

/-! ## `std::string` and `size_t` -/

/-- A `std::string`: a sequence of characters. -/
abbrev Str := List Char

/-- The value `std::string::npos`, the largest `size_t`. -/
def npos : Nat := 2 ^ 64 - 1

/-- Addition of two `size_t` values. -/
def sizeAdd (a b : Nat) : Nat := (a + b) % 2 ^ 64

/-- Subtraction of two `size_t` values. -/
def sizeSub (a b : Nat) : Nat := (a + 2 ^ 64 - b % 2 ^ 64) % 2 ^ 64

/-- Ways in which a call does not return normally. -/
inductive Failure
  /-- The macro `GIT2` printed the libgit2 error and called `exit(code)`. -/
  | exit (code : Int)
  /-- The exception `std::out_of_range` of `std::string::substr`. -/
  | out_of_range
  /-- A `std::string` built from an iterator pair whose first is past its last. -/
  | invalid_range
  /-- An out-parameter is used that the library call did not set. -/
  | unset_out_param
  deriving DecidableEq, Repr

deriving instance DecidableEq for Except

/-- Search of `std::string::find`, started at position `pos` of the text
whose remaining part is the first argument. -/
def findFrom : Str → Str → Nat → Nat
  | [], needle, pos => if needle.isEmpty then pos else npos
  | c :: cs, needle, pos =>
    if needle.isPrefixOf (c :: cs) then pos else findFrom cs needle (pos + 1)

/-- The call `s.find(needle)`: the position of the first occurrence of
`needle` in `s`, or `npos`. -/
def find (s needle : Str) : Nat := findFrom s needle 0

/-- Scan of `std::string::find_last_of`: `best` is the last position seen so
far that holds a character of `chars`. -/
def findLastOfFrom : Str → Str → Nat → Nat → Nat
  | [], _, _, best => best
  | c :: cs, chars, pos, best =>
    findLastOfFrom cs chars (pos + 1) (if chars.contains c then pos else best)

/-- The call `s.find_last_of(chars)`: the last position of `s` that holds
any character of `chars`, or `npos`. -/
def find_last_of (s chars : Str) : Nat := findLastOfFrom s chars 0 npos

/-- The call `s.substr(pos, len)`: throws when `pos > s.size()`, otherwise
the characters from `pos` on, at most `len` of them. -/
def substr (s : Str) (pos len : Nat) : Except Failure Str :=
  if pos > s.length then .error .out_of_range else .ok ((s.drop pos).take len)

/-- The constructor `std::string(s.begin() + first, s.begin() + last)`; the
iterator pair has to be a range inside `s`. -/
def iterator_range (s : Str) (first last : Int) : Except Failure Str :=
  if 0 ≤ first ∧ first ≤ last ∧ last ≤ s.length then
    .ok ((s.drop first.toNat).take (last - first).toNat)
  else
    .error .invalid_range

/-! ## The repository state behind the libgit2 calls -/

/-- An object id (`git_oid`). Commits are numbered in the order of their
creation; a tree is identified with its contents. -/
abbrev git_oid := Nat

/-- The fields of `git_index_entry` that `GitAPI` sets. -/
structure git_index_entry where
  mode : Nat
  id : git_oid
  path : Str
  deriving DecidableEq, Repr

/-- A staging area (`git_index`): its entries, at most one per path. -/
abbrev git_index := List git_index_entry

/-- A tree object: the entries it was written from. -/
abbrev git_tree := List git_index_entry

/-- A `git_signature`. -/
structure git_signature where
  name : Str
  email : Str
  time : Int
  offset : Int
  deriving DecidableEq, Repr

/-- A commit object. -/
structure git_commit where
  tree : git_tree
  parents : List git_oid
  author : git_signature
  committer : git_signature
  message : Str
  deriving DecidableEq, Repr

/-- What the reference `HEAD` does when it is resolved. -/
inductive RefState
  /-- It resolves to an object id. -/
  | resolves (oid : git_oid)
  /-- The branch has no commit yet: the lookup reports not-found. -/
  | notFound
  /-- The lookup fails with the negative status `Int.negSucc k`. -/
  | failed (k : Nat)
  deriving DecidableEq, Repr

/-- The open repository (`git_repository`): the commits of its object
store (the commit with id `k` is `commits[k]`), the state of `HEAD`, and
the index stored with the repository. -/
structure git_repository where
  commits : List git_commit
  HEAD : RefState
  index : git_index
  deriving DecidableEq, Repr

/-- The regular file mode `GIT_FILEMODE_BLOB`. -/
def GIT_FILEMODE_BLOB : Nat := 0o100644

/-- The executable file mode; the source notes its value, `0100755`. -/
def GIT_FILEMODE_BLOB_EXECUTABLE : Nat := 0o100755

/-- Modelled from the spec: the not-found status of libgit2 (declared in
git2/errors.h, which is not under src/). The spec calls it an expected,
checkable condition; it is a negative status, `-3` in libgit2. -/
def GIT_ENOTFOUND : Int := -3

/-- Modelled from the spec: the libgit2 status of a call on a handle that is
null (git2 is not under src/), the generic error `-1`. -/
def GIT_ERROR : Int := -1

/-- Modelled from the spec: libgit2's `git_reference_name_to_id` for the name
`HEAD` (not under src/): status `0` and the id when "the branch has any
commit", the not-found status when it has none. -/
def git_reference_name_to_id (repo : git_repository) : Int × Option git_oid :=
  match repo.HEAD with
  | .resolves oid => (0, some oid)
  | .notFound => (GIT_ENOTFOUND, none)
  | .failed k => (Int.negSucc k, none)

/-- Modelled from the spec: libgit2's `git_commit_lookup` (not under src/):
the commit stored under the id, or the not-found status. -/
def git_commit_lookup (repo : git_repository) (oid : git_oid) : Int × Option git_commit :=
  match repo.commits[oid]? with
  | some c => (0, some c)
  | none => (GIT_ENOTFOUND, none)

/-- Modelled from the spec: libgit2's `git_commit_message` (not under src/):
the message the commit was created with. -/
def git_commit_message (c : git_commit) : Str := c.message

/-- Modelled from the spec: libgit2's `git_commit_tree` (not under src/): the
tree of the commit. -/
def git_commit_tree (c : git_commit) : Int × Option git_tree := (0, some c.tree)

/-- Modelled from the spec: libgit2's `git_repository_index` (not under
src/): the index stored with the repository, the one `close()` "flushes to
durable storage". -/
def git_repository_index (repo : git_repository) : Int × Option git_index :=
  (0, some repo.index)

/-- Modelled from the spec: libgit2's `git_index_read_tree` (not under src/):
the staging area gets "full parity" with the tree, its former entries are
replaced. -/
def git_index_read_tree (index : Option git_index) (tree : git_tree) : Int × Option git_index :=
  match index with
  | some _ => (0, some tree)
  | none => (GIT_ERROR, none)

/-- Modelled from the spec: libgit2's `git_index_add` (not under src/):
`upsert`, which "inserts or replaces the entry at path", with no error on
overwrite. -/
def git_index_add (index : Option git_index) (entry : git_index_entry) : Int × Option git_index :=
  match index with
  | some es => (0, some (entry :: es.filter (fun e => e.path ≠ entry.path)))
  | none => (GIT_ERROR, none)

/-- Modelled from the spec: libgit2's `git_index_remove_bypath` (not under
src/): `remove`, which "deletes the entry at path" and "fails ... if no
entry exists at that path". -/
def git_index_remove_bypath (index : Option git_index) (path : Str) : Int × Option git_index :=
  match index with
  | some es =>
    if es.any (fun e => e.path = path) then
      (0, some (es.filter (fun e => e.path ≠ path)))
    else
      (GIT_ENOTFOUND, some es)
  | none => (GIT_ERROR, none)

/-- Modelled from the spec: libgit2's `git_index_write` (not under src/): it
"flushes the staging area's internal representation to durable storage". -/
def git_index_write (repo : git_repository) (index : Option git_index) : Int × git_repository :=
  match index with
  | some es => (0, { repo with index := es })
  | none => (GIT_ERROR, repo)

/-- Modelled from the spec: libgit2's `git_index_write_tree_to` (not under
src/): `sealTree`, which "converts the current staging area into an
immutable tree object", determined by the staging area's contents. -/
def git_index_write_tree_to (index : Option git_index) (_repo : git_repository) :
    Int × Option git_tree :=
  match index with
  | some es => (0, some es)
  | none => (GIT_ERROR, none)

/-- Modelled from the spec: libgit2's `git_tree_lookup` (not under src/): the
tree object of a tree id. -/
def git_tree_lookup (_repo : git_repository) (id : git_tree) : Int × Option git_tree :=
  (0, some id)

/-- Modelled from the spec: libgit2's `git_signature_new` (not under src/):
the identity with its timestamp and timezone offset. -/
def git_signature_new (name email : Str) (time offset : Int) : Int × Option git_signature :=
  (0, some ⟨name, email, time, offset⟩)

/-- Modelled from the spec: libgit2's `git_revparse_ext` for `HEAD` (not under
src/): it "resolves the current branch tip as parent, if any"; without a
tip commit the status is negative and the object stays null. -/
def git_revparse_ext (repo : git_repository) : Int × Option git_oid :=
  match repo.HEAD with
  | .resolves oid =>
    match repo.commits[oid]? with
    | some _ => (0, some oid)
    | none => (GIT_ENOTFOUND, none)
  | .notFound => (GIT_ENOTFOUND, none)
  | .failed k => (Int.negSucc k, none)

/-- Modelled from the spec: libgit2's `git_commit_create_v` with the
reference `HEAD` (not under src/): it "creates the commit, advances the
branch tip to point at it, and returns its identifier". Of the parent
arguments the first `parent_count` are read. -/
def git_commit_create_v (repo : git_repository) (author committer : git_signature)
    (message : Str) (tree : git_tree) (parent_count : Nat) (parents : List git_oid) :
    Int × Option git_oid × git_repository :=
  let c : git_commit := ⟨tree, parents.take parent_count, author, committer, message⟩
  (0, some repo.commits.length,
    { repo with commits := repo.commits ++ [c], HEAD := .resolves repo.commits.length })

/-! ## `GitAPI` -/

/-- The members of `GitAPI`: the open repository and the staging area that
is open, if one is. -/
structure GitAPI where
  m_Repo : git_repository
  m_Index : Option git_index
  deriving DecidableEq, Repr

/-- The macro `GIT2`: a negative status ends the process with that status. -/
def GIT2 (error : Int) : Except Failure Unit :=
  if error < 0 then .error (.exit error) else .ok ()

/-- Reading an out-parameter after the call that had to set it. -/
def outParam {α : Type} : Option α → Except Failure α
  | some a => .ok a
  | none => .error .unset_out_param

namespace GitAPI

/-- The function `GitAPI::IsRepositoryClonedFrom`. -/
def IsRepositoryClonedFrom (g : GitAPI) (depotPath : Str) : Except Failure Bool := do
  let (error, oid) := git_reference_name_to_id g.m_Repo
  GIT2 error
  let oid ← outParam oid
  let (error, headCommit) := git_commit_lookup g.m_Repo oid
  GIT2 error
  let headCommit ← outParam headCommit
  let message := git_commit_message headCommit
  let depotPathStart := sizeAdd (find message "depot-paths = \"".toList) 15
  let depotPathEnd := sizeSub (find message "\": change".toList) 1
  let repoDepotPath :=
    (← substr message depotPathStart (sizeAdd (sizeSub depotPathEnd depotPathStart) 1))
      ++ "...".toList
  return repoDepotPath == depotPath

/-- The function `GitAPI::IsHEADExists`. -/
def IsHEADExists (g : GitAPI) : Except Failure Bool := do
  let (errorCode, _) := git_reference_name_to_id g.m_Repo
  if errorCode ≠ 0 ∧ errorCode ≠ GIT_ENOTFOUND then
    GIT2 errorCode
  return errorCode == 0

/-- The function `GitAPI::DetectLatestCL`. -/
def DetectLatestCL (g : GitAPI) : Except Failure Str := do
  let (error, oid) := git_reference_name_to_id g.m_Repo
  GIT2 error
  let oid ← outParam oid
  let (error, headCommit) := git_commit_lookup g.m_Repo oid
  GIT2 error
  let headCommit ← outParam headCommit
  let message := git_commit_message headCommit
  let clStart := sizeAdd (find_last_of message "change = ".toList) 1
  iterator_range message clStart ((message.length : Int) - 1)

/-- The function `GitAPI::CreateIndex`. -/
def CreateIndex (g : GitAPI) : Except Failure GitAPI := do
  let (error, index) := git_repository_index g.m_Repo
  GIT2 error
  let g : GitAPI := { g with m_Index := index }
  if (← IsHEADExists g) then
    let (error, oid_parent_commit) := git_reference_name_to_id g.m_Repo
    GIT2 error
    let oid_parent_commit ← outParam oid_parent_commit
    let (error, head_commit) := git_commit_lookup g.m_Repo oid_parent_commit
    GIT2 error
    let head_commit ← outParam head_commit
    let (error, head_commit_tree) := git_commit_tree head_commit
    GIT2 error
    let head_commit_tree ← outParam head_commit_tree
    let (error, index) := git_index_read_tree g.m_Index head_commit_tree
    GIT2 error
    return { g with m_Index := index }
  else
    return g

/-- The function `GitAPI::AddFileToIndex`; `Erase` is `STDHelpers::Erase`
(utils/std_helpers.h, not under src/). -/
def AddFileToIndex (Erase : Str → Str → Str) (g : GitAPI) (depotPath depotFile : Str)
    (oid : git_oid) (plusx : Bool) : Except Failure GitAPI := do
  let mode := if plusx then GIT_FILEMODE_BLOB_EXECUTABLE else GIT_FILEMODE_BLOB
  let depotPathTrunc ← substr depotPath 0 (sizeSub depotPath.length 3)
  let gitFilePath := Erase depotFile depotPathTrunc
  let (error, index) := git_index_add g.m_Index ⟨mode, oid, gitFilePath⟩
  GIT2 error
  return { g with m_Index := index }

/-- The function `GitAPI::RemoveFileFromIndex`; `Erase` is
`STDHelpers::Erase` (utils/std_helpers.h, not under src/). -/
def RemoveFileFromIndex (Erase : Str → Str → Str) (g : GitAPI) (depotPath depotFile : Str) :
    Except Failure GitAPI := do
  let depotPathTrunc ← substr depotPath 0 (sizeSub depotPath.length 3)
  let gitFilePath := Erase depotFile depotPathTrunc
  let (error, index) := git_index_remove_bypath g.m_Index gitFilePath
  GIT2 error
  return { g with m_Index := index }

/-- The message `commitMsg` that `GitAPI::Commit` builds and passes to
`git_commit_create_v`. -/
def commitMsg (depotPath cl desc : Str) : Except Failure Str := do
  let depotPathTrunc ← substr depotPath 0 (sizeSub depotPath.length 3)
  return cl ++ " - ".toList ++ desc ++ "\n[p4-fusion: depot-paths = \"".toList
    ++ depotPathTrunc ++ "\": change = ".toList ++ cl ++ "]".toList

/-- The function `GitAPI::Commit`; the result is the id of the new commit
(the source returns its hexadecimal rendering). -/
def Commit (g : GitAPI) (depotPath cl user email : Str) (timezone : Int) (desc : Str)
    (timestamp : Int) : Except Failure (git_oid × GitAPI) := do
  let (error, commitTreeID) := git_index_write_tree_to g.m_Index g.m_Repo
  GIT2 error
  let commitTreeID ← outParam commitTreeID
  let (error, commitTree) := git_tree_lookup g.m_Repo commitTreeID
  GIT2 error
  let commitTree ← outParam commitTree
  let (error, author) := git_signature_new user email timestamp timezone
  GIT2 error
  let author ← outParam author
  let (_, parent) := git_revparse_ext g.m_Repo
  let commitMsg ← commitMsg depotPath cl desc
  let (error, commitID, repo) :=
    git_commit_create_v g.m_Repo author author commitMsg commitTree
      (if parent.isSome then 1 else 0) parent.toList
  GIT2 error
  let commitID ← outParam commitID
  return (commitID, { g with m_Repo := repo })

/-- The function `GitAPI::CloseIndex`: the index is written and freed;
afterwards no staging area is open, and a call that needs one fails. -/
def CloseIndex (g : GitAPI) : Except Failure GitAPI := do
  let (error, repo) := git_index_write g.m_Repo g.m_Index
  GIT2 error
  return { m_Repo := repo, m_Index := none }

end GitAPI

/-! ## Notions used to state the properties -/

/-- The message of the tip commit: of the commit that `HEAD` resolves to. -/
def tipMessage (repo : git_repository) : Option Str :=
  match repo.HEAD with
  | .resolves oid => (repo.commits[oid]?).map (fun c => c.message)
  | _ => none

/-- A repository whose only commit is the tip and carries the message `msg`;
no staging area is open. -/
def tipOnly (msg : Str) : GitAPI :=
  ⟨⟨[⟨[], [], ⟨[], [], 0, 0⟩, ⟨[], [], 0, 0⟩, msg⟩], .resolves 0, []⟩, none⟩

/-- The message of a commit with the change number "12a4". -/
def msgLetterCL : Str := "12a4 - fix\n[p4-fusion: depot-paths = \"//d/\": change = 12a4]".toList

/-- The message of change 1042, whose description quotes the end of a trailer. -/
def msgQuotedCL : Str :=
  "1042 - undo change = 7]\n[p4-fusion: depot-paths = \"//depot/proj/\": change = 1042]".toList

/-- A tip message without a trailer. -/
def msgNoTrailer : Str := "initial import//depot/proj/".toList

/-- A freshly initialised repository: no commit, no tip, an empty stored
index, and no staging area open. -/
def fresh : GitAPI := ⟨⟨[], .notFound, []⟩, none⟩

/-- A changelist description that quotes the trailer of another mirror. -/
def descQuoting : Str := "Revert \"[p4-fusion: depot-paths = \"//old/\": change = 7]\"".toList

/-- The commit message in the words of the spec, the word after the opening
bracket left open: `<change-number> - <description>`, a line break, and the
trailer with the source path (without its last three characters) and the
change number. -/
def wireFormat (tag sourcePath cl description : Str) : Str :=
  cl ++ " - ".toList ++ description ++ "\n[".toList ++ tag ++ ": depot-paths = \"".toList
    ++ List.rdrop sourcePath 3 ++ "\": change = ".toList ++ cl ++ "]".toList

/-- Modelled from the spec: `STDHelpers::Erase` (utils/std_helpers.h, not
under src/), by which "the root prefix, with its trailing wildcard marker
stripped, is removed before staging". -/
def eraseLeading (source subString : Str) : Str :=
  if subString.isPrefixOf source then source.drop subString.length else source

/-- The value of `depotPath.substr(0, depotPath.size() - 3)`; from position
`0` the call cannot throw. -/
def depotPathTrunc (depotPath : Str) : Str := depotPath.take (sizeSub depotPath.length 3)

/-- The state `fresh` with an empty staging area open. -/
def freshOpen : GitAPI := ⟨fresh.m_Repo, some []⟩

/-- The tip: the commit that `HEAD` resolves to, if there is one. -/
def tip (repo : git_repository) : Option git_oid :=
  match repo.HEAD with
  | .resolves oid => if oid < repo.commits.length then some oid else none
  | _ => none

/-- Walking parent links from the commit `id`, at most `fuel` commits far:
the commits visited, `id` first. The walk ends at a commit without parent. -/
def walkParents (commits : List git_commit) : Nat → git_oid → List git_oid
  | 0, _ => []
  | fuel + 1, id =>
    match commits[id]? with
    | none => []
    | some c =>
      id :: (match c.parents with
        | [] => []
        | p :: _ => walkParents commits fuel p)

/-- The walk along parent links that starts at the tip. -/
def history (repo : git_repository) (fuel : Nat) : List git_oid :=
  match tip repo with
  | some id => walkParents repo.commits fuel id
  | none => []

/-- The calls of `GitAPI` that a mirroring run makes for its changelists. -/
inductive Call
  | CreateIndex
  | AddFileToIndex (depotPath depotFile : Str) (oid : git_oid) (plusx : Bool)
  | RemoveFileFromIndex (depotPath depotFile : Str)
  | Commit (depotPath cl user email : Str) (timezone : Int) (desc : Str) (timestamp : Int)
  | CloseIndex
  deriving DecidableEq, Repr

/-- Whether the call is a `Commit`. -/
def Call.isCommit : Call → Bool
  | .Commit .. => true
  | _ => false

/-- One call on the state `g`: the new state and, for a `Commit`, the id it
returned. -/
def Call.run (Erase : Str → Str → Str) (g : GitAPI) : Call → Except Failure (Option git_oid × GitAPI)
  | .CreateIndex => do
    let g ← g.CreateIndex
    return (none, g)
  | .AddFileToIndex depotPath depotFile oid plusx => do
    let g ← g.AddFileToIndex Erase depotPath depotFile oid plusx
    return (none, g)
  | .RemoveFileFromIndex depotPath depotFile => do
    let g ← g.RemoveFileFromIndex Erase depotPath depotFile
    return (none, g)
  | .Commit depotPath cl user email timezone desc timestamp => do
    let (id, g) ← g.Commit depotPath cl user email timezone desc timestamp
    return (some id, g)
  | .CloseIndex => do
    let g ← g.CloseIndex
    return (none, g)

/-- A sequence of calls, each on the state the call before it left; the run
stops at the first failure. The result lists the ids that the `Commit`
calls returned, in the order of the calls. -/
def runCalls (Erase : Str → Str → Str) : GitAPI → List Call → Except Failure (List git_oid × GitAPI)
  | g, [] => .ok ([], g)
  | g, c :: cs => do
    let (id, g) ← c.run Erase g
    let (ids, g) ← runCalls Erase g cs
    return (id.toList ++ ids, g)

/-- The two changelists of the spec's scenario: "a.txt" is added in change 1;
in change 2 it is removed and the executable "b.txt" is added. -/
def scenario : List Call :=
  [.CreateIndex,
   .AddFileToIndex "//depot/proj/...".toList "//depot/proj/a.txt".toList 7 false,
   .Commit "//depot/proj/...".toList "1".toList "dev".toList "dev@example.com".toList 0
     "add a".toList 1700000000,
   .CloseIndex,
   .CreateIndex,
   .RemoveFileFromIndex "//depot/proj/...".toList "//depot/proj/a.txt".toList,
   .AddFileToIndex "//depot/proj/...".toList "//depot/proj/b.txt".toList 8 true,
   .Commit "//depot/proj/...".toList "2".toList "dev".toList "dev@example.com".toList 0
     "replace a by b".toList 1700000100,
   .CloseIndex]

/-- The ids form a chain in the commit store, the newest first: every commit
of the list has the next id as its only parent, and the last has none. -/
def Linked (commits : List git_commit) : List git_oid → Prop
  | [] => True
  | [id] => ∃ c, commits[id]? = some c ∧ c.parents = []
  | id :: p :: rest => (∃ c, commits[id]? = some c ∧ c.parents = [p]) ∧ Linked commits (p :: rest)

/-- The chain `acc` (newest first) is the history of the repository: it is
empty and there is no tip, or `HEAD` resolves to its first id. -/
def Chain (repo : git_repository) : List git_oid → Prop
  | [] => tip repo = none
  | id :: rest => repo.HEAD = .resolves id ∧ Linked repo.commits (id :: rest)

/-- The state in which the run of `scenario` on `fresh` ends. -/
def scenarioEnd : GitAPI :=
  match runCalls eraseLeading fresh scenario with
  | .ok (_, g) => g
  | .error _ => fresh

/-! ## Lemmas on the string functions -/

open GitAPI

/-- The scan of `find_last_of` over a concatenation. -/
theorem findLastOfFrom_append (a b chars : Str) (pos best : Nat) :
    findLastOfFrom (a ++ b) chars pos best
      = findLastOfFrom b chars (pos + a.length) (findLastOfFrom a chars pos best) := by
  induction a generalizing pos best with
  | nil => simp [findLastOfFrom]
  | cons c cs ih =>
    rw [List.cons_append]
    simp only [findLastOfFrom, List.length_cons]
    rw [ih]
    congr 1
    omega

/-- The scan over characters outside `chars` keeps the position found. -/
theorem findLastOfFrom_clean (t chars : Str) (pos best : Nat)
    (h : ∀ c ∈ t, chars.contains c = false) : findLastOfFrom t chars pos best = best := by
  induction t generalizing pos best with
  | nil => rfl
  | cons c cs ih =>
    have hc : chars.contains c = false := h c (List.mem_cons_self _ _)
    simp only [findLastOfFrom, hc]
    exact ih _ _ (fun x hx => h x (List.mem_cons_of_mem _ hx))

/-- The position `find_last_of` returns: that of the last character of `chars`. -/
theorem find_last_of_split (pre t chars : Str) (c : Char) (hc : chars.contains c = true)
    (ht : ∀ x ∈ t, chars.contains x = false) :
    find_last_of (pre ++ c :: t) chars = pre.length := by
  unfold find_last_of
  rw [findLastOfFrom_append]
  simp only [findLastOfFrom, hc, if_true, Nat.zero_add]
  exact findLastOfFrom_clean _ _ _ _ ht

/-- With a tip commit, `DetectLatestCL` is the range it cuts out of its message. -/
theorem detect_of_tip (g : GitAPI) (m : Str) (h : tipMessage g.m_Repo = some m) :
    DetectLatestCL g
      = iterator_range m (sizeAdd (find_last_of m "change = ".toList) 1) ((m.length : Int) - 1) := by
  unfold tipMessage at h
  unfold DetectLatestCL git_reference_name_to_id
  cases hH : g.m_Repo.HEAD with
  | resolves oid =>
    rw [hH] at h
    simp only at h
    cases hc : g.m_Repo.commits[oid]? with
    | none => rw [hc] at h; simp at h
    | some c =>
      rw [hc] at h
      simp only [Option.map_some', Option.some.injEq] at h
      subst h
      simp [GIT2, outParam, git_commit_lookup, hc, git_commit_message, bind, Except.bind]
  | notFound => rw [hH] at h; simp at h
  | failed k => rw [hH] at h; simp at h

/-- The range from behind position `pre.length` up to the last character. -/
theorem iterator_range_split (pre r : Str) (c z : Char)
    (hlen : (pre ++ c :: (r ++ [z])).length < 2 ^ 64) :
    iterator_range (pre ++ c :: (r ++ [z])) (sizeAdd pre.length 1)
      (((pre ++ c :: (r ++ [z])).length : Int) - 1) = .ok r := by
  have h1 : sizeAdd pre.length 1 = pre.length + 1 := by
    unfold sizeAdd
    apply Nat.mod_eq_of_lt
    simp at hlen
    omega
  rw [h1]
  unfold iterator_range
  have hl : ((pre ++ c :: (r ++ [z])).length : Int) - 1
      = ((pre.length + 1 + r.length : Nat) : Int) := by
    simp
    omega
  rw [hl]
  have hcond : (0 : Int) ≤ ((pre.length + 1 : Nat) : Int)
      ∧ ((pre.length + 1 : Nat) : Int) ≤ ((pre.length + 1 + r.length : Nat) : Int)
      ∧ ((pre.length + 1 + r.length : Nat) : Int) ≤ ((pre ++ c :: (r ++ [z])).length : Int) := by
    simp
    omega
  rw [if_pos hcond]
  have e1 : (((pre.length + 1 : Nat) : Int)).toNat = pre.length + 1 := by simp
  have e2 : (((pre.length + 1 + r.length : Nat) : Int)
      - ((pre.length + 1 : Nat) : Int)).toNat = r.length := by
    simp
  rw [e1, e2]
  have : pre ++ c :: (r ++ [z]) = (pre ++ [c]) ++ (r ++ [z]) := by simp
  rw [this, List.drop_left' (by simp)]
  simp

/-- The message of `GitAPI::Commit`; building it cannot fail. -/
theorem commitMsg_eq (depotPath cl desc : Str) :
    commitMsg depotPath cl desc
      = .ok (cl ++ " - ".toList ++ desc ++ "\n[p4-fusion: depot-paths = \"".toList
          ++ depotPath.take (sizeSub depotPath.length 3) ++ "\": change = ".toList ++ cl
          ++ "]".toList) := by
  unfold commitMsg substr
  rw [if_neg (by omega)]
  rfl

theorem contains_true_iff (S : Str) (c : Char) : S.contains c = true ↔ c ∈ S := by
  unfold List.contains
  exact List.elem_iff
theorem contains_false_iff (S : Str) (c : Char) : S.contains c = false ↔ c ∉ S := by
  rw [← contains_true_iff, Bool.not_eq_true]

theorem detect_shape (g : GitAPI) (m pre r : Str) (c : Char)
    (htip : tipMessage g.m_Repo = some m) (hm : m = pre ++ c :: (r ++ [']']))
    (hc : c ∈ "change = ".toList) (hr : ∀ x ∈ r, x ∉ "change = ".toList)
    (hlen : m.length < 2 ^ 64) : DetectLatestCL g = .ok r := by
  rw [detect_of_tip g m htip]
  subst hm
  rw [find_last_of_split pre (r ++ [']']) _ c ((contains_true_iff _ _).2 hc)]
  · exact iterator_range_split pre r c ']' hlen
  · intro x hx
    rw [contains_false_iff]
    rw [List.mem_append] at hx
    rcases hx with hx | hx
    · exact hr x hx
    · rw [List.mem_singleton] at hx
      subst hx
      decide

/-- Every string splits into a longest suffix free of `S` and the part before
it, which is empty or ends with a character of `S`. -/
theorem exists_clean_split (S cl : Str) :
    ∃ a r, cl = a ++ r ∧ (∀ c ∈ r, c ∉ S) ∧ (a = [] ∨ ∃ b x, a = b ++ [x] ∧ x ∈ S) := by
  induction cl using List.reverseRecOn with
  | nil => exact ⟨[], [], rfl, by simp, Or.inl rfl⟩
  | append_singleton l x ih =>
    by_cases hx : x ∈ S
    · exact ⟨l ++ [x], [], by simp, by simp, Or.inr ⟨l, x, rfl, hx⟩⟩
    · obtain ⟨a, r, hl, hr, ha⟩ := ih
      refine ⟨a, r ++ [x], by simp [hl], ?_, ha⟩
      intro c hc
      rw [List.mem_append] at hc
      rcases hc with hc | hc
      · exact hr c hc
      · rw [List.mem_singleton] at hc
        subst hc
        exact hx

/-- A suffix free of `S` lies within the part behind the last character of `S`. -/
theorem clean_suffix_maximal (S a r s : Str) (ha : a = [] ∨ ∃ b x, a = b ++ [x] ∧ x ∈ S)
    (hs : s <:+ a ++ r) (hclean : ∀ c ∈ s, c ∉ S) : s <:+ r := by
  rcases ha with ha | ⟨b, x, ha, hx⟩
  · subst ha
    simpa using hs
  · subst ha
    by_cases hle : s.length ≤ r.length
    · exact List.suffix_of_suffix_length_le hs (List.suffix_append _ _) hle
    · exfalso
      have h1 : (x :: r) <:+ (b ++ [x]) ++ r := by
        refine ⟨b, ?_⟩
        simp
      have h2 : (x :: r) <:+ s :=
        List.suffix_of_suffix_length_le h1 hs (by simp; omega)
      exact hclean x (h2.subset (List.mem_cons_self _ _)) hx

/-- On a message built by `GitAPI::Commit`, `DetectLatestCL` returns the
longest suffix of the change number free of the characters of "change = ". -/
theorem detect_commitMsg (g : GitAPI) (depotPath cl desc m : Str)
    (hm : commitMsg depotPath cl desc = .ok m) (htip : tipMessage g.m_Repo = some m)
    (hlen : m.length < 2 ^ 64) :
    ∃ r, DetectLatestCL g = .ok r ∧ r <:+ cl ∧ (∀ c ∈ r, c ∉ "change = ".toList) ∧
      (∀ s, s <:+ cl → (∀ c ∈ s, c ∉ "change = ".toList) → s <:+ r) := by
  rw [commitMsg_eq] at hm
  injection hm with hm
  obtain ⟨a, r, hcl, hr, ha⟩ := exists_clean_split "change = ".toList cl
  refine ⟨r, ?_, ⟨a, hcl.symm⟩, hr, ?_⟩
  · rcases ha with ha | ⟨b, x, ha, hx⟩
    · subst ha
      rw [List.nil_append] at hcl
      subst hcl
      refine detect_shape g m
        (cl ++ " - ".toList ++ desc ++ "\n[p4-fusion: depot-paths = \"".toList
          ++ depotPath.take (sizeSub depotPath.length 3) ++ "\": change =".toList)
        cl ' ' htip ?_ (by decide) hr hlen
      rw [← hm]
      simp only [List.append_assoc]
      rfl
    · subst ha
      refine detect_shape g m
        (cl ++ " - ".toList ++ desc ++ "\n[p4-fusion: depot-paths = \"".toList
          ++ depotPath.take (sizeSub depotPath.length 3) ++ "\": change = ".toList ++ b)
        r x htip ?_ hx hr hlen
      rw [← hm]
      simp only [List.append_assoc]
      rw [hcl]
      simp only [List.append_assoc]
      rfl
  · intro s hs hclean
    rw [hcl] at hs
    exact clean_suffix_maximal _ a r s ha hs hclean

theorem digit_not_in_marker : ∀ x ∈ "change = ".toList, x.isDigit = false := by decide

/-! ## The change number in the trailer -/

/-- C10: `DetectLatestCL` starts the change number after the last character
of the message that belongs to the characters of "change = ". On a tip
message built by `GitAPI::Commit` from an arbitrary change-number string
`cl` it returns the longest suffix of `cl` free of those characters: the
result is a suffix of `cl`, holds none of the characters, every suffix of
`cl` free of them is a suffix of the result, and the result is `cl` exactly
when `cl` holds none of them. -/
theorem DetectLatestCL_longest_clean_suffix (g : GitAPI) (depotPath cl desc m : Str)
    (hm : commitMsg depotPath cl desc = .ok m) (htip : tipMessage g.m_Repo = some m)
    (hlen : m.length < 2 ^ 64) :
    ∃ r, DetectLatestCL g = .ok r ∧ r <:+ cl ∧ (∀ c ∈ r, c ∉ "change = ".toList) ∧
      (∀ s, s <:+ cl → (∀ c ∈ s, c ∉ "change = ".toList) → s <:+ r) ∧
      (r = cl ↔ ∀ c ∈ cl, c ∉ "change = ".toList) := by
  obtain ⟨r, hr, hsuf, hclean, hmax⟩ := detect_commitMsg g depotPath cl desc m hm htip hlen
  refine ⟨r, hr, hsuf, hclean, hmax, ?_, ?_⟩
  · intro h
    rw [← h]
    exact hclean
  · intro h
    have h1 : cl <:+ r := hmax cl (List.suffix_refl cl) h
    exact hsuf.eq_of_length (Nat.le_antisymm hsuf.length_le h1.length_le)

/-- C10, at the change number "12a4": the result exists, and by the clauses
above it is "4", not "12a4". -/
theorem DetectLatestCL_longest_clean_suffix_witness :
    (commitMsg "//d/...".toList "12a4".toList "fix".toList = .ok msgLetterCL
      ∧ tipMessage (tipOnly msgLetterCL).m_Repo = some msgLetterCL
      ∧ msgLetterCL.length < 2 ^ 64)
    ∧ ∃ r, DetectLatestCL (tipOnly msgLetterCL) = .ok r ∧ r <:+ "12a4".toList ∧
      (∀ c ∈ r, c ∉ "change = ".toList) ∧
      (∀ s, s <:+ "12a4".toList → (∀ c ∈ s, c ∉ "change = ".toList) → s <:+ r) ∧
      (r = "12a4".toList ↔ ∀ c ∈ "12a4".toList, c ∉ "change = ".toList) :=
  ⟨⟨by decide, by decide, by decide⟩,
    DetectLatestCL_longest_clean_suffix (tipOnly msgLetterCL) "//d/...".toList "12a4".toList
      "fix".toList msgLetterCL (by decide) (by decide) (by decide)⟩

/-- C2: trailer round-trip of the change number. When the tip message is the
one `GitAPI::Commit` builds from a source path, a change number `cl` of
decimal digits and a description, `DetectLatestCL` returns exactly `cl`
(for every source path and description, and also for the empty `cl`). -/
theorem DetectLatestCL_roundtrip (g : GitAPI) (depotPath cl desc m : Str)
    (hdigits : ∀ c ∈ cl, c.isDigit = true)
    (hm : commitMsg depotPath cl desc = .ok m) (htip : tipMessage g.m_Repo = some m)
    (hlen : m.length < 2 ^ 64) :
    DetectLatestCL g = .ok cl := by
  obtain ⟨r, hr, hsuf, _, hmax⟩ := detect_commitMsg g depotPath cl desc m hm htip hlen
  have hclean : ∀ c ∈ cl, c ∉ "change = ".toList := by
    intro c hc hmem
    have h1 := digit_not_in_marker c hmem
    rw [hdigits c hc] at h1
    exact Bool.noConfusion h1
  have h1 : cl <:+ r := hmax cl (List.suffix_refl cl) hclean
  have : r = cl := hsuf.eq_of_length (Nat.le_antisymm hsuf.length_le h1.length_le)
  rw [hr, this]

/-- C2, at the change number "1042" with a description that itself quotes
the end of a trailer. -/
theorem DetectLatestCL_roundtrip_witness :
    ((∀ c ∈ "1042".toList, c.isDigit = true)
      ∧ commitMsg "//depot/proj/...".toList "1042".toList "undo change = 7]".toList
        = .ok msgQuotedCL
      ∧ tipMessage (tipOnly msgQuotedCL).m_Repo = some msgQuotedCL
      ∧ msgQuotedCL.length < 2 ^ 64)
    ∧ DetectLatestCL (tipOnly msgQuotedCL) = .ok "1042".toList :=
  ⟨⟨by decide, by decide, by decide, by decide⟩,
    DetectLatestCL_roundtrip (tipOnly msgQuotedCL) "//depot/proj/...".toList "1042".toList
      "undo change = 7]".toList msgQuotedCL (by decide) (by decide) (by decide) (by decide)⟩

/-! ## The source path in the trailer -/

/-- With a tip commit, `IsRepositoryClonedFrom` is the comparison with the
substring it cuts out of its message. -/
theorem cloned_of_tip (g : GitAPI) (m depotPath : Str) (h : tipMessage g.m_Repo = some m) :
    IsRepositoryClonedFrom g depotPath
      = (substr m (sizeAdd (find m "depot-paths = \"".toList) 15)
          (sizeAdd (sizeSub (sizeSub (find m "\": change".toList) 1)
            (sizeAdd (find m "depot-paths = \"".toList) 15)) 1)).map
          (fun r => (r ++ "...".toList) == depotPath) := by
  unfold tipMessage at h
  unfold IsRepositoryClonedFrom git_reference_name_to_id
  cases hH : g.m_Repo.HEAD with
  | resolves oid =>
    rw [hH] at h
    simp only at h
    cases hc : g.m_Repo.commits[oid]? with
    | none => rw [hc] at h; simp at h
    | some c =>
      rw [hc] at h
      simp only [Option.map_some', Option.some.injEq] at h
      subst h
      simp only [GIT2, outParam, git_commit_lookup, hc, git_commit_message, bind, Except.bind,
        pure, Except.pure, lt_self_iff_false, if_false]
      cases substr c.message (sizeAdd (find c.message "depot-paths = \"".toList) 15)
          (sizeAdd (sizeSub (sizeSub (find c.message "\": change".toList) 1)
            (sizeAdd (find c.message "depot-paths = \"".toList) 15)) 1) <;> rfl
  | notFound => rw [hH] at h; simp at h
  | failed k => rw [hH] at h; simp at h

/-- The search `find` returns `npos` for a string that does not occur. -/
theorem findFrom_absent (s needle : Str) (pos : Nat) (h : ¬ needle <:+: s) :
    findFrom s needle pos = npos := by
  induction s generalizing pos with
  | nil =>
    unfold findFrom
    rw [if_neg]
    intro he
    rw [List.isEmpty_iff] at he
    subst he
    exact h (List.infix_refl _)
  | cons c cs ih =>
    unfold findFrom
    rw [if_neg]
    · apply ih
      intro hi
      exact h (hi.trans (List.suffix_cons c cs).isInfix)
    · intro hp
      rw [ List.isPrefixOf_iff_prefix] at hp
      exact h hp.isInfix

/-- C9: a tip message that holds neither `depot-paths = "` nor `": change` is
not reported as malformed. Both searches give `npos`, the start position
wraps to 14, and `IsRepositoryClonedFrom` throws `std::out_of_range` when
the message has fewer than 14 characters and otherwise answers whether the
queried path is the message without its first 14 characters followed by
"..."; some message without a trailer is thus accepted for some path. -/
theorem IsRepositoryClonedFrom_without_markers :
    (∀ (g : GitAPI) (m depotPath : Str), tipMessage g.m_Repo = some m →
      ¬ "depot-paths = \"".toList <:+: m → ¬ "\": change".toList <:+: m → m.length < 2 ^ 64 →
      (m.length < 14 → IsRepositoryClonedFrom g depotPath = .error .out_of_range) ∧
      (14 ≤ m.length →
        IsRepositoryClonedFrom g depotPath
          = .ok (decide (depotPath = m.drop 14 ++ "...".toList)))) ∧
    (∃ (g : GitAPI) (m depotPath : Str), tipMessage g.m_Repo = some m ∧
      ¬ "depot-paths = \"".toList <:+: m ∧ ¬ "\": change".toList <:+: m ∧
      IsRepositoryClonedFrom g depotPath = .ok true) := by
  constructor
  · intro g m depotPath htip h1 h2 hlen
    rw [cloned_of_tip g m depotPath htip]
    unfold find
    rw [findFrom_absent m _ 0 h1, findFrom_absent m _ 0 h2]
    have e1 : sizeAdd npos 15 = 14 := by decide
    have e2 : sizeAdd (sizeSub (sizeSub npos 1) 14) 1 = 2 ^ 64 - 15 := by decide
    rw [e1, e2]
    unfold substr
    constructor
    · intro hshort
      rw [if_pos (by omega)]
      rfl
    · intro hlong
      rw [if_neg (by omega)]
      have htake : List.take (2 ^ 64 - 15) (List.drop 14 m) = List.drop 14 m := by
        apply List.take_of_length_le
        rw [List.length_drop]
        omega
      rw [htake]
      simp only [Except.map]
      congr 1
      by_cases hq : depotPath = m.drop 14 ++ "...".toList
      · subst hq
        simp
      · rw [decide_eq_false hq]
        rw [beq_eq_false_iff_ne]
        exact fun h => hq h.symm
  · refine ⟨tipOnly msgNoTrailer, msgNoTrailer, "//depot/proj/...".toList, ?_, ?_, ?_, ?_⟩ <;> decide

/-- C9, at a nine-character message and at a message of 27 characters. -/
theorem IsRepositoryClonedFrom_without_markers_witness :
    IsRepositoryClonedFrom (tipOnly "first cut".toList) "//depot/proj/...".toList
        = .error .out_of_range
      ∧ IsRepositoryClonedFrom (tipOnly msgNoTrailer) "//depot/proj/...".toList
        = .ok (decide ("//depot/proj/...".toList = msgNoTrailer.drop 14 ++ "...".toList)) :=
  ⟨(IsRepositoryClonedFrom_without_markers.1 (tipOnly "first cut".toList) "first cut".toList
      "//depot/proj/...".toList (by decide) (by decide) (by decide) (by decide)).1 (by decide),
    (IsRepositoryClonedFrom_without_markers.1 (tipOnly msgNoTrailer) msgNoTrailer
      "//depot/proj/...".toList (by decide) (by decide) (by decide) (by decide)).2 (by decide)⟩

/-- The search `find` returns the position of an occurrence that no other
occurrence precedes. -/
theorem findFrom_first (needle Y : Str) (hne : needle ≠ []) :
    ∀ (X : Str) (pos : Nat), ¬ needle <:+: X ++ needle.dropLast →
      findFrom (X ++ needle ++ Y) needle pos = pos + X.length := by
  intro X
  induction X with
  | nil =>
    intro pos _
    obtain ⟨c, cs, hcs⟩ := List.exists_cons_of_ne_nil hne
    subst hcs
    simp only [List.nil_append, List.cons_append, findFrom, List.length_nil, Nat.add_zero]
    rw [if_pos]
    rw [ List.isPrefixOf_iff_prefix]
    exact ⟨Y, rfl⟩
  | cons x X' ih =>
    intro pos h
    rw [List.cons_append, List.cons_append]
    unfold findFrom
    rw [if_neg]
    · rw [ih (pos + 1)]
      · simp only [List.length_cons]
        omega
      · intro hi
        apply h
        rw [List.cons_append]
        exact hi.trans (List.suffix_cons x _).isInfix
    · intro hp
      rw [ List.isPrefixOf_iff_prefix] at hp
      apply h
      have h1 : (x :: X' ++ needle.dropLast) <+: x :: (X' ++ needle ++ Y) := by
        refine ⟨[needle.getLast hne] ++ Y, ?_⟩
        have := List.dropLast_append_getLast hne
        conv_rhs => rw [← this]
        simp only [List.cons_append, List.append_assoc]
      have h2 : needle <+: (x :: X' ++ needle.dropLast) := by
        apply List.prefix_of_prefix_length_le hp h1
        simp only [List.cons_append, List.length_cons, List.length_append, List.length_dropLast]
        have : 0 < needle.length := List.length_pos.2 hne
        omega
      exact h2.isInfix

/-- A string without the character `x` that starts `a ++ x :: b` starts `a`. -/
theorem prefix_of_sep (x : Char) (a b : Str) :
    ∀ needle : Str, x ∉ needle → needle <+: a ++ x :: b → needle <+: a := by
  induction a with
  | nil =>
    intro needle hx h
    cases needle with
    | nil => exact List.prefix_refl _
    | cons n ns =>
      rw [List.nil_append, List.cons_prefix_cons] at h
      exact absurd (List.mem_cons.2 (Or.inl h.1.symm)) hx
  | cons y a' ih =>
    intro needle hx h
    cases needle with
    | nil => exact List.nil_prefix
    | cons n ns =>
      rw [List.cons_append, List.cons_prefix_cons] at h
      rw [List.cons_prefix_cons]
      exact ⟨h.1, ih ns (fun hm => hx (List.mem_cons_of_mem _ hm)) h.2⟩

/-- A string without the character `x` that occurs in `a ++ x :: b` occurs in
`a` or in `b`. -/
theorem infix_of_sep (needle : Str) (x : Char) (b : Str) (hx : x ∉ needle) :
    ∀ a : Str, needle <:+: a ++ x :: b → needle <:+: a ∨ needle <:+: b := by
  intro a
  induction a with
  | nil =>
    intro h
    rw [List.nil_append, List.infix_cons_iff] at h
    rcases h with h | h
    · exact Or.inl (prefix_of_sep x [] b needle hx h).isInfix
    · exact Or.inr h
  | cons y a' ih =>
    intro h
    rw [List.cons_append, List.infix_cons_iff] at h
    rcases h with h | h
    · exact Or.inl (prefix_of_sep x (y :: a') b needle hx h).isInfix
    · rcases ih h with h' | h'
      · exact Or.inl (h'.trans (List.suffix_cons y a').isInfix)
      · exact Or.inr h'

/-- A string whose first character is not in `A` and that occurs in `A ++ Z`
occurs in `Z`. -/
theorem infix_of_first_char (q : Char) (ns Z : Str) :
    ∀ A : Str, q ∉ A → (q :: ns) <:+: A ++ Z → (q :: ns) <:+: Z := by
  intro A
  induction A with
  | nil => intro _ h; exact h
  | cons y A' ih =>
    intro hq h
    rw [List.cons_append, List.infix_cons_iff] at h
    rcases h with h | h
    · rw [List.cons_prefix_cons] at h
      exact absurd (List.mem_cons.2 (Or.inl h.1)) hq
    · exact ih (fun hm => hq (List.mem_cons_of_mem _ hm)) h

/-- The length `depotPathEnd - depotPathStart + 1` in `size_t` arithmetic: the
length of the token, also when the token is empty and the subtraction wraps. -/
theorem size_of_token (a t : Nat) (ha : 1 ≤ a) (hlt : a + t < 2 ^ 64) :
    sizeAdd (sizeSub (sizeSub (a + t) 1) a) 1 = t := by
  unfold sizeAdd sizeSub
  omega

theorem head_clean (cl desc needle : Str) (q : Char) (ns : Str) (hn : needle = q :: ns)
    (hq1 : q.isDigit = false) (hq2 : q ∉ " - ".toList)
    (hdigits : ∀ c ∈ cl, c.isDigit = true) (hd : ¬ needle <:+: desc) :
    ¬ needle <:+: cl ++ " - ".toList ++ desc := by
  intro h
  rw [hn] at h hd
  apply hd
  apply infix_of_first_char q ns desc (cl ++ " - ".toList) _ h
  intro hmem
  rcases List.mem_append.1 hmem with hc | hc
  · rw [hdigits q hc] at hq1
    exact Bool.noConfusion hq1
  · exact hq2 hc

theorem trunc_of_dots (depotPath : Str) (hdots : "...".toList <:+ depotPath)
    (hsize : depotPath.length < 2 ^ 64) :
    depotPath.take (sizeSub depotPath.length 3) = List.rdrop depotPath 3
      ∧ depotPath = List.rdrop depotPath 3 ++ "...".toList := by
  have h3 : 3 ≤ depotPath.length := hdots.length_le
  have hsub : sizeSub depotPath.length 3 = depotPath.length - 3 := by
    unfold sizeSub
    omega
  refine ⟨by rw [hsub]; rfl, ?_⟩
  obtain ⟨t, ht⟩ := hdots
  subst ht
  unfold List.rdrop
  have : (t ++ "...".toList).length - 3 = t.length := by
    rw [List.length_append]
    rfl
  rw [this, List.take_left]

theorem cloned_roundtrip_of_clean (g : GitAPI) (depotPath cl desc m Q : Str)
    (hdots : "...".toList <:+ depotPath) (hsize : depotPath.length < 2 ^ 64)
    (hdigits : ∀ c ∈ cl, c.isDigit = true)
    (hd1 : ¬ "depot-paths = \"".toList <:+: desc) (hd2 : ¬ "\": change".toList <:+: desc)
    (hP : ¬ "\": change".toList <:+: '"' :: (List.rdrop depotPath 3 ++ "\": chang".toList))
    (hm : commitMsg depotPath cl desc = .ok m) (htip : tipMessage g.m_Repo = some m)
    (hlen : m.length < 2 ^ 64) :
    IsRepositoryClonedFrom g Q = .ok (decide (Q = depotPath)) := by
  obtain ⟨htr, hPeq⟩ := trunc_of_dots depotPath hdots hsize
  rw [commitMsg_eq, htr] at hm
  replace hm := Except.ok.inj hm
  generalize List.rdrop depotPath 3 = trunc at hm hP hPeq
  have hh1 : ¬ "depot-paths = \"".toList <:+: cl ++ " - ".toList ++ desc :=
    head_clean cl desc _ 'd' "epot-paths = \"".toList (by decide) (by decide) (by decide)
      hdigits hd1
  have hh2 : ¬ "\": change".toList <:+: cl ++ " - ".toList ++ desc :=
    head_clean cl desc _ '"' ": change".toList (by decide) (by decide) (by decide) hdigits hd2
  -- the first marker
  have hm1 : m = (cl ++ " - ".toList ++ desc ++ "\n[p4-fusion: ".toList)
      ++ "depot-paths = \"".toList ++ (trunc ++ "\": change = ".toList ++ cl ++ "]".toList) := by
    have e : "\n[p4-fusion: depot-paths = \"".toList
        = "\n[p4-fusion: ".toList ++ "depot-paths = \"".toList := by decide
    rw [← hm, e]
    simp only [List.append_assoc]
  have hf1 : find m "depot-paths = \"".toList
      = (cl ++ " - ".toList ++ desc ++ "\n[p4-fusion: ".toList).length := by
    unfold find
    rw [hm1, findFrom_first _ _ (by decide), Nat.zero_add]
    intro hi
    have e : cl ++ " - ".toList ++ desc ++ "\n[p4-fusion: ".toList
          ++ List.dropLast "depot-paths = \"".toList
        = (cl ++ " - ".toList ++ desc) ++ '\n' :: "[p4-fusion: depot-paths = ".toList := by
      have e' : "\n[p4-fusion: ".toList ++ List.dropLast "depot-paths = \"".toList
          = '\n' :: "[p4-fusion: depot-paths = ".toList := by decide
      rw [List.append_assoc _ "\n[p4-fusion: ".toList, e']
    rw [e] at hi
    rcases infix_of_sep _ '\n' _ (by decide) _ hi with h | h
    · exact hh1 h
    · exact absurd h (by decide)
  -- the second marker
  have hm2 : m = (cl ++ " - ".toList ++ desc ++ "\n[p4-fusion: depot-paths = \"".toList ++ trunc)
      ++ "\": change".toList ++ (" = ".toList ++ cl ++ "]".toList) := by
    have e : "\": change = ".toList = "\": change".toList ++ " = ".toList := by decide
    rw [← hm, e]
    simp only [List.append_assoc]
  have hf2 : find m "\": change".toList
      = (cl ++ " - ".toList ++ desc ++ "\n[p4-fusion: depot-paths = \"".toList ++ trunc).length := by
    unfold find
    rw [hm2, findFrom_first _ _ (by decide), Nat.zero_add]
    intro hi
    have e : cl ++ " - ".toList ++ desc ++ "\n[p4-fusion: depot-paths = \"".toList ++ trunc
          ++ List.dropLast "\": change".toList
        = (cl ++ " - ".toList ++ desc) ++ '\n' ::
            ("[p4-fusion: depot-paths = ".toList ++ '"' :: (trunc ++ "\": chang".toList)) := by
      have e1 : "\n[p4-fusion: depot-paths = \"".toList
          = '\n' :: ("[p4-fusion: depot-paths = ".toList ++ ['"']) := by decide
      have e2 : List.dropLast "\": change".toList = "\": chang".toList := by decide
      rw [e1, e2]
      simp only [List.append_assoc, List.cons_append, List.singleton_append, List.nil_append]
    rw [e] at hi
    rcases infix_of_sep _ '\n' _ (by decide) _ hi with h | h
    · exact hh2 h
    · have e3 : "\": change".toList = '"' :: ": change".toList := by decide
      rw [e3] at h hP
      exact hP (infix_of_first_char '"' _ _ _ (by decide) h)
  rw [cloned_of_tip g m Q htip, hf1, hf2]
  -- the arithmetic of the positions
  have hlenm : m.length = (cl ++ " - ".toList ++ desc ++ "\n[p4-fusion: ".toList).length + 15
      + trunc.length + ("\": change = ".toList ++ cl ++ "]".toList).length := by
    rw [hm1]
    simp only [List.length_append]
    have : "depot-paths = \"".toList.length = 15 := by decide
    omega
  generalize hX : (cl ++ " - ".toList ++ desc ++ "\n[p4-fusion: ".toList).length = x at hlenm hf1
  have hx2 : (cl ++ " - ".toList ++ desc ++ "\n[p4-fusion: depot-paths = \"".toList ++ trunc).length
      = (x + 15) + trunc.length := by
    have e : "\n[p4-fusion: depot-paths = \"".toList
        = "\n[p4-fusion: ".toList ++ "depot-paths = \"".toList := by decide
    rw [e, ← hX]
    simp only [List.length_append]
    have : "depot-paths = \"".toList.length = 15 := by decide
    omega
  rw [hx2]
  have hstart : sizeAdd x 15 = x + 15 := by
    unfold sizeAdd
    omega
  rw [hstart, size_of_token (x + 15) trunc.length (by omega) (by omega)]
  unfold substr
  rw [if_neg (by omega)]
  have hdrop : (m.drop (x + 15)).take trunc.length = trunc := by
    rw [hm1]
    have hl : (cl ++ " - ".toList ++ desc ++ "\n[p4-fusion: ".toList
        ++ "depot-paths = \"".toList).length = x + 15 := by
      rw [List.length_append, hX]
      rfl
    rw [List.drop_left' hl]
    simp only [List.append_assoc]
    rw [List.take_left]
  rw [hdrop]
  have hb : ((trunc ++ "...".toList) == Q) = decide (Q = depotPath) := by
    rw [hPeq]
    by_cases hq : Q = trunc ++ "...".toList
    · rw [decide_eq_true hq, beq_iff_eq]
      exact hq.symm
    · rw [decide_eq_false hq, beq_eq_false_iff_ne]
      exact fun h => hq h.symm
  rw [← hb]
  rfl

/-- C1, at a description that quotes a trailer: the first commit of a fresh
repository is made from the source path "//depot/proj/..." with such a
description. `IsRepositoryClonedFrom` then denies the path the repository
was cloned from and accepts the quoted one, since both markers are searched
from the start of the message, where the description comes first. -/
theorem IsRepositoryClonedFrom_reads_description :
    (do
      let g ← CreateIndex fresh
      let (_, g) ← Commit g "//depot/proj/...".toList "8".toList "dev".toList
        "dev@example.com".toList 0 descQuoting 1700000000
      IsRepositoryClonedFrom g "//depot/proj/...".toList) = .ok false
    ∧ (do
      let g ← CreateIndex fresh
      let (_, g) ← Commit g "//depot/proj/...".toList "8".toList "dev".toList
        "dev@example.com".toList 0 descQuoting 1700000000
      IsRepositoryClonedFrom g "//old/...".toList) = .ok true
    ∧ (do
      let g ← CreateIndex fresh
      let (_, g) ← Commit g "//depot/proj/...".toList "8".toList "dev".toList
        "dev@example.com".toList 0 descQuoting 1700000000
      DetectLatestCL g) = .ok "8".toList := by
  decide

/-! ## The commit message -/

/-- C3, as stated: with the word `mirror` after the opening bracket the
message differs from the one `GitAPI::Commit` builds. -/
theorem commitMsg_not_mirror :
    commitMsg "//depot/proj/...".toList "1".toList "first".toList
      ≠ .ok (wireFormat "mirror".toList "//depot/proj/...".toList "1".toList "first".toList) := by
  decide

/-- C3, amended: for every source path ending with "...", change number and
description, the message `GitAPI::Commit` builds is the wire format of the
spec with the word `p4-fusion` after the opening bracket. -/
theorem commitMsg_wire_format (depotPath cl desc : Str) (hdots : "...".toList <:+ depotPath)
    (hsize : depotPath.length < 2 ^ 64) :
    commitMsg depotPath cl desc = .ok (wireFormat "p4-fusion".toList depotPath cl desc) := by
  rw [commitMsg_eq]
  have h3 : 3 ≤ depotPath.length := hdots.length_le
  have hsub : sizeSub depotPath.length 3 = depotPath.length - 3 := by
    unfold sizeSub
    have : depotPath.length + 2 ^ 64 - 3 % 2 ^ 64 = (depotPath.length - 3) + 2 ^ 64 := by omega
    rw [this, Nat.add_mod_right]
    exact Nat.mod_eq_of_lt (by omega)
  rw [hsub]
  unfold wireFormat List.rdrop
  simp only [List.append_assoc]
  rfl

/-- C3, amended, at the source path "//depot/proj/...". -/
theorem commitMsg_wire_format_witness :
    ("...".toList <:+ "//depot/proj/...".toList ∧ "//depot/proj/...".toList.length < 2 ^ 64)
    ∧ commitMsg "//depot/proj/...".toList "1".toList "first".toList
      = .ok (wireFormat "p4-fusion".toList "//depot/proj/...".toList "1".toList "first".toList) :=
  ⟨⟨by decide, by decide⟩,
    commitMsg_wire_format "//depot/proj/...".toList "1".toList "first".toList (by decide)
      (by decide)⟩

/-! ## The prefix erased from depot files -/

theorem substr_zero (s : Str) (len : Nat) : substr s 0 len = .ok (s.take len) := by
  unfold substr
  rw [if_neg (by omega)]
  rfl

/-- C8, as stated: for the two-character depot path "ab" the prefix erased is
not the path without its last three characters (the empty string, which
would leave "abc"): the subtraction wraps, the whole of "ab" is erased and
written to the trailer. -/
theorem short_depotPath_erased_whole :
    AddFileToIndex eraseLeading freshOpen "ab".toList "abc".toList 1 false
        ≠ .ok ⟨fresh.m_Repo,
            some [⟨GIT_FILEMODE_BLOB, 1, eraseLeading "abc".toList (List.rdrop "ab".toList 3)⟩]⟩
      ∧ AddFileToIndex eraseLeading freshOpen "ab".toList "abc".toList 1 false
        = .ok ⟨fresh.m_Repo, some [⟨GIT_FILEMODE_BLOB, 1, "c".toList⟩]⟩
      ∧ commitMsg "ab".toList "1".toList "first".toList
        = .ok "1 - first\n[p4-fusion: depot-paths = \"ab\": change = 1]".toList := by
  decide

/-- C8, amended: for every depot path and depot file, `AddFileToIndex` and
`RemoveFileFromIndex` erase the same prefix and pass the same path to the
index, and that prefix is the token `GitAPI::Commit` writes between the
markers `depot-paths = "` and `": change`; when the depot path has at least
three characters the prefix is the depot path without its last three. -/
theorem depot_prefix_consistent (Erase : Str → Str → Str) (g : GitAPI)
    (depotPath depotFile cl desc : Str) (oid : git_oid) (plusx : Bool) :
    AddFileToIndex Erase g depotPath depotFile oid plusx
        = (do
          let (error, index) := git_index_add g.m_Index
            ⟨if plusx then GIT_FILEMODE_BLOB_EXECUTABLE else GIT_FILEMODE_BLOB, oid,
              Erase depotFile (depotPathTrunc depotPath)⟩
          GIT2 error
          return { g with m_Index := index })
      ∧ RemoveFileFromIndex Erase g depotPath depotFile
        = (do
          let (error, index) := git_index_remove_bypath g.m_Index
            (Erase depotFile (depotPathTrunc depotPath))
          GIT2 error
          return { g with m_Index := index })
      ∧ commitMsg depotPath cl desc
        = .ok (cl ++ " - ".toList ++ desc ++ "\n[p4-fusion: ".toList
            ++ ("depot-paths = \"".toList ++ depotPathTrunc depotPath ++ "\": change".toList)
            ++ " = ".toList ++ cl ++ "]".toList)
      ∧ (3 ≤ depotPath.length → depotPath.length < 2 ^ 64 →
          depotPathTrunc depotPath = List.rdrop depotPath 3) := by
  refine ⟨?_, ?_, ?_, ?_⟩
  · unfold AddFileToIndex
    rw [substr_zero]
    rfl
  · unfold RemoveFileFromIndex
    rw [substr_zero]
    rfl
  · rw [commitMsg_eq]
    have e1 : "\n[p4-fusion: depot-paths = \"".toList
        = "\n[p4-fusion: ".toList ++ "depot-paths = \"".toList := by decide
    have e2 : "\": change = ".toList = "\": change".toList ++ " = ".toList := by decide
    rw [e1, e2]
    unfold depotPathTrunc
    simp only [List.append_assoc]
  · intro h3 hsize
    unfold depotPathTrunc List.rdrop sizeSub
    have : depotPath.length + 2 ^ 64 - 3 % 2 ^ 64 = (depotPath.length - 3) + 2 ^ 64 := by omega
    rw [this, Nat.add_mod_right, Nat.mod_eq_of_lt (by omega)]

/-- C8, amended, at the depot path "//depot/proj/...": the prefix is
"//depot/proj/". -/
theorem depot_prefix_consistent_witness :
    (3 ≤ "//depot/proj/...".toList.length ∧ "//depot/proj/...".toList.length < 2 ^ 64)
    ∧ depotPathTrunc "//depot/proj/...".toList = List.rdrop "//depot/proj/...".toList 3 :=
  ⟨⟨by decide, by decide⟩,
    (depot_prefix_consistent eraseLeading freshOpen "//depot/proj/...".toList
      "//depot/proj/a.txt".toList "1".toList "first".toList 7 false).2.2.2 (by decide) (by decide)⟩

/-! ## The tip and the queries that read it -/

theorem queries_fail_of_not_resolved (g : GitAPI) (depotPath : Str) (code : Int) (hneg : code < 0)
    (h : git_reference_name_to_id g.m_Repo = (code, none)) :
    IsRepositoryClonedFrom g depotPath = .error (.exit code)
      ∧ DetectLatestCL g = .error (.exit code) := by
  unfold IsRepositoryClonedFrom DetectLatestCL
  rw [h]
  simp [GIT2, hneg, bind, Except.bind]

/-- C7: `IsHEADExists` returns true exactly when `HEAD` resolves (to the id
of the tip commit), and returns false, without failing, when the lookup
reports not-found. Whenever `IsHEADExists` returns false, both
`IsRepositoryClonedFrom` and `DetectLatestCL` end the process through `GIT2`
instead of returning a value. -/
theorem IsHEADExists_and_tip_queries (g : GitAPI) :
    (IsHEADExists g = .ok true ↔ ∃ oid, g.m_Repo.HEAD = .resolves oid)
      ∧ (g.m_Repo.HEAD = .notFound → IsHEADExists g = .ok false)
      ∧ (IsHEADExists g = .ok false → ∀ depotPath : Str,
          IsRepositoryClonedFrom g depotPath = .error (.exit GIT_ENOTFOUND)
            ∧ DetectLatestCL g = .error (.exit GIT_ENOTFOUND)) := by
  cases hH : g.m_Repo.HEAD with
  | resolves oid =>
    have hE : IsHEADExists g = .ok true := by
      unfold IsHEADExists git_reference_name_to_id
      rw [hH]
      rfl
    rw [hE]
    refine ⟨⟨fun _ => ⟨oid, rfl⟩, fun _ => rfl⟩, fun h => RefState.noConfusion h, fun h => ?_⟩
    injection h with h
    exact Bool.noConfusion h
  | notFound =>
    have hE : IsHEADExists g = .ok false := by
      unfold IsHEADExists git_reference_name_to_id
      rw [hH]
      rfl
    rw [hE]
    refine ⟨⟨fun h => ?_, fun ⟨_, h⟩ => RefState.noConfusion h⟩, fun _ => rfl, fun _ depotPath => ?_⟩
    · injection h with h
      exact Bool.noConfusion h
    · apply queries_fail_of_not_resolved g depotPath GIT_ENOTFOUND (by decide)
      unfold git_reference_name_to_id
      rw [hH]
  | failed k =>
    by_cases hk : k = 2
    · subst hk
      have hE : IsHEADExists g = .ok false := by
        unfold IsHEADExists git_reference_name_to_id
        rw [hH]
        rfl
      rw [hE]
      refine ⟨⟨fun h => ?_, fun ⟨_, h⟩ => RefState.noConfusion h⟩, fun h => RefState.noConfusion h,
        fun _ depotPath => ?_⟩
      · injection h with h
        exact Bool.noConfusion h
      · apply queries_fail_of_not_resolved g depotPath GIT_ENOTFOUND (by decide)
        unfold git_reference_name_to_id
        rw [hH]
        rfl
    · have hE : IsHEADExists g = .error (.exit (Int.negSucc k)) := by
        unfold IsHEADExists git_reference_name_to_id
        rw [hH]
        have hne : Int.negSucc k ≠ 0 ∧ Int.negSucc k ≠ GIT_ENOTFOUND := by
          constructor
          · exact fun h => Int.noConfusion h
          · intro h
            unfold GIT_ENOTFOUND at h
            rw [Int.negSucc_eq] at h
            apply hk
            omega
        simp only [if_pos hne, GIT2, if_pos (Int.negSucc_lt_zero k), bind, Except.bind]
      rw [hE]
      refine ⟨⟨fun h => Except.noConfusion h, fun ⟨_, h⟩ => RefState.noConfusion h⟩,
        fun h => RefState.noConfusion h, fun h => Except.noConfusion h⟩

/-- C7, on a fresh repository, whose `HEAD` does not resolve. -/
theorem IsHEADExists_and_tip_queries_witness :
    (fresh.m_Repo.HEAD = .notFound ∧ IsHEADExists fresh = .ok false)
    ∧ IsRepositoryClonedFrom fresh "//depot/proj/...".toList = .error (.exit GIT_ENOTFOUND)
    ∧ DetectLatestCL fresh = .error (.exit GIT_ENOTFOUND) :=
  ⟨⟨by decide, (IsHEADExists_and_tip_queries fresh).2.1 (by decide)⟩,
    (IsHEADExists_and_tip_queries fresh).2.2 (by decide) "//depot/proj/...".toList⟩

/-! ## The staging area -/

/-- C4: removal precondition. With a staging area open, for every depot path
and depot file: when no entry of the staging area has the computed path,
`RemoveFileFromIndex` ends the process through `GIT2` with the not-found
status; when an entry has it, the call returns, the repository is
untouched, the staging area keeps exactly its entries at other paths, and
the tree sealed from it has no entry at the path. -/
theorem RemoveFileFromIndex_precondition (Erase : Str → Str → Str) (g : GitAPI)
    (idx : git_index) (hidx : g.m_Index = some idx) (depotPath depotFile : Str) :
    ((∀ e ∈ idx, e.path ≠ Erase depotFile (depotPathTrunc depotPath)) →
        RemoveFileFromIndex Erase g depotPath depotFile = .error (.exit GIT_ENOTFOUND))
      ∧ ((∃ e ∈ idx, e.path = Erase depotFile (depotPathTrunc depotPath)) →
        ∃ idx1 : git_index,
          RemoveFileFromIndex Erase g depotPath depotFile
              = .ok { m_Repo := g.m_Repo, m_Index := some idx1 }
            ∧ (∀ e, e ∈ idx1 ↔ e ∈ idx ∧ e.path ≠ Erase depotFile (depotPathTrunc depotPath))
            ∧ ∃ tree : git_tree, git_index_write_tree_to (some idx1) g.m_Repo = (0, some tree)
              ∧ ∀ e ∈ tree, e.path ≠ Erase depotFile (depotPathTrunc depotPath)) := by
  constructor
  · intro habsent
    unfold RemoveFileFromIndex
    rw [substr_zero, hidx]
    have hany : idx.any (fun e => decide (e.path = Erase depotFile (depotPathTrunc depotPath)))
        = false := by
      rw [List.any_eq_false]
      intro e he
      simpa using habsent e he
    simp only [bind, Except.bind, git_index_remove_bypath]
    unfold depotPathTrunc at hany
    rw [hany]
    rfl
  · intro hpresent
    refine ⟨idx.filter (fun e => e.path ≠ Erase depotFile (depotPathTrunc depotPath)), ?_, ?_,
      _, rfl, ?_⟩
    · unfold RemoveFileFromIndex
      rw [substr_zero, hidx]
      have hany : idx.any (fun e => decide (e.path = Erase depotFile (depotPathTrunc depotPath)))
          = true := by
        rw [List.any_eq_true]
        obtain ⟨e, he, hp⟩ := hpresent
        exact ⟨e, he, by simpa using hp⟩
      simp only [bind, Except.bind, git_index_remove_bypath]
      unfold depotPathTrunc at hany
      rw [hany]
      rfl
    · intro e
      simp [List.mem_filter]
    · intro e he
      have := (List.mem_filter.1 he).2
      simpa using this

/-- C4, at a staging area holding "a.txt": removing "//depot/proj/b.txt"
fails, removing "//depot/proj/a.txt" empties the staging area. -/
theorem RemoveFileFromIndex_precondition_witness :
    RemoveFileFromIndex eraseLeading ⟨fresh.m_Repo, some [⟨GIT_FILEMODE_BLOB, 7, "a.txt".toList⟩]⟩
        "//depot/proj/...".toList "//depot/proj/b.txt".toList = .error (.exit GIT_ENOTFOUND)
      ∧ ∃ idx1 : git_index,
          RemoveFileFromIndex eraseLeading
              ⟨fresh.m_Repo, some [⟨GIT_FILEMODE_BLOB, 7, "a.txt".toList⟩]⟩
              "//depot/proj/...".toList "//depot/proj/a.txt".toList
              = .ok { m_Repo := fresh.m_Repo, m_Index := some idx1 }
            ∧ (∀ e, e ∈ idx1 ↔ e ∈ [(⟨GIT_FILEMODE_BLOB, 7, "a.txt".toList⟩ : git_index_entry)]
                ∧ e.path ≠ eraseLeading "//depot/proj/a.txt".toList
                  (depotPathTrunc "//depot/proj/...".toList))
            ∧ ∃ tree : git_tree,
              git_index_write_tree_to (some idx1) fresh.m_Repo = (0, some tree)
              ∧ ∀ e ∈ tree, e.path ≠ eraseLeading "//depot/proj/a.txt".toList
                  (depotPathTrunc "//depot/proj/...".toList) :=
  ⟨(RemoveFileFromIndex_precondition eraseLeading
      ⟨fresh.m_Repo, some [⟨GIT_FILEMODE_BLOB, 7, "a.txt".toList⟩]⟩ _ rfl
      "//depot/proj/...".toList "//depot/proj/b.txt".toList).1 (by decide),
    (RemoveFileFromIndex_precondition eraseLeading
      ⟨fresh.m_Repo, some [⟨GIT_FILEMODE_BLOB, 7, "a.txt".toList⟩]⟩ _ rfl
      "//depot/proj/...".toList "//depot/proj/a.txt".toList).2 (by decide)⟩

/-- What `CreateIndex` opens: the tree of the tip commit when `HEAD` resolves
to a commit, and the index stored with the repository, whatever it holds,
when `HEAD` is not found. -/
theorem CreateIndex_result (g : GitAPI) :
    (∀ (oid : git_oid) (c : git_commit), g.m_Repo.HEAD = .resolves oid →
        g.m_Repo.commits[oid]? = some c →
        CreateIndex g = .ok { m_Repo := g.m_Repo, m_Index := some c.tree })
      ∧ (g.m_Repo.HEAD = .notFound →
        CreateIndex g = .ok { m_Repo := g.m_Repo, m_Index := some g.m_Repo.index }) := by
  constructor
  · intro oid c hH hc
    unfold CreateIndex IsHEADExists
    simp [git_repository_index, git_reference_name_to_id, git_commit_lookup, git_commit_tree,
      git_index_read_tree, GIT2, outParam, bind, Except.bind, pure, Except.pure, hH, hc]
  · intro hH
    unfold CreateIndex IsHEADExists
    simp [git_repository_index, git_reference_name_to_id, GIT2, GIT_ENOTFOUND, bind, Except.bind,
      pure, Except.pure, hH]

/-- C5, on a fresh repository: a file is staged and the staging area is
closed without a commit. The next `CreateIndex` finds no `HEAD`, and the
staging area it opens still holds the entry instead of being empty. -/
theorem CreateIndex_keeps_flushed_entries :
    (do
      let g ← CreateIndex fresh
      let g ← AddFileToIndex eraseLeading g "//depot/proj/...".toList
        "//depot/proj/a.txt".toList 7 false
      let g ← CloseIndex g
      let g ← CreateIndex g
      return (← IsHEADExists g, g.m_Index))
      = .ok (false, some [⟨GIT_FILEMODE_BLOB, 7, "a.txt".toList⟩]) := by
  decide

/-! ## The chain of commits -/

/-- The object `git_revparse_ext` finds for `HEAD` is the tip. -/
theorem revparse_eq_tip (repo : git_repository) : (git_revparse_ext repo).2 = tip repo := by
  unfold git_revparse_ext tip
  cases repo.HEAD with
  | resolves oid =>
    simp only
    by_cases h : oid < repo.commits.length
    · rw [if_pos h, List.getElem?_eq_getElem h]
    · rw [if_neg h, List.getElem?_eq_none (Nat.le_of_not_lt h)]
  | notFound => rfl
  | failed k => rfl

/-- The state after a `Commit` that returned: one commit more, whose parents
are the former tip if there was one, and `HEAD` at the new commit. -/
theorem Commit_ok (g g1 : GitAPI) (depotPath cl user email desc : Str) (timezone timestamp : Int)
    (id : git_oid) (h : Commit g depotPath cl user email timezone desc timestamp = .ok (id, g1)) :
    ∃ (idx : git_index) (msg : Str), g.m_Index = some idx ∧ id = g.m_Repo.commits.length
      ∧ commitMsg depotPath cl desc = .ok msg
      ∧ g1 = { m_Repo :=
                { commits := g.m_Repo.commits ++
                    [⟨idx, (tip g.m_Repo).toList, ⟨user, email, timestamp, timezone⟩,
                      ⟨user, email, timestamp, timezone⟩, msg⟩],
                  HEAD := .resolves g.m_Repo.commits.length,
                  index := g.m_Repo.index },
               m_Index := g.m_Index } := by
  unfold Commit at h
  cases hidx : g.m_Index with
  | none =>
    rw [hidx] at h
    simp [git_index_write_tree_to, GIT2, GIT_ERROR, bind, Except.bind] at h
  | some idx =>
    obtain ⟨msg, hmsg⟩ : ∃ msg, commitMsg depotPath cl desc = .ok msg := ⟨_, commitMsg_eq _ _ _⟩
    rw [hidx, hmsg] at h
    have hrev := revparse_eq_tip g.m_Repo
    cases htip : tip g.m_Repo with
    | none =>
      rw [htip] at hrev
      simp [git_index_write_tree_to, git_tree_lookup, git_signature_new, git_commit_create_v,
        GIT2, outParam, bind, Except.bind, pure, Except.pure, hrev] at h
      refine ⟨idx, msg, rfl, h.1.symm, hmsg, ?_⟩
      rw [← h.2]
      rfl
    | some t =>
      rw [htip] at hrev
      simp [git_index_write_tree_to, git_tree_lookup, git_signature_new, git_commit_create_v,
        GIT2, outParam, bind, Except.bind, pure, Except.pure, hrev] at h
      refine ⟨idx, msg, rfl, h.1.symm, hmsg, ?_⟩
      rw [← h.2]
      rfl

theorem getElem?_append_some {α : Type} (l l' : List α) (i : Nat) (a : α) (h : l[i]? = some a) :
    (l ++ l')[i]? = some a := by
  have hlt : i < l.length := by
    by_contra hge
    rw [List.getElem?_eq_none (Nat.le_of_not_lt hge)] at h
    exact Option.noConfusion h
  rw [List.getElem?_append_left hlt]
  exact h

theorem Linked_append (commits : List git_commit) (c : git_commit) (acc : List git_oid)
    (h : Linked commits acc) : Linked (commits ++ [c]) acc := by
  induction acc with
  | nil => trivial
  | cons id rest ih =>
    cases rest with
    | nil =>
      obtain ⟨c', hc, hp⟩ := h
      exact ⟨c', getElem?_append_some _ _ _ _ hc, hp⟩
    | cons p rest' =>
      obtain ⟨⟨c', hc, hp⟩, hrest⟩ := h
      exact ⟨⟨c', getElem?_append_some _ _ _ _ hc, hp⟩, ih hrest⟩

/-- The walk along a chain visits the chain, given fuel for each commit. -/
theorem walk_of_linked (commits : List git_commit) (rest : List git_oid) :
    ∀ (id : git_oid) (fuel : Nat), Linked commits (id :: rest) → (id :: rest).length ≤ fuel →
      walkParents commits fuel id = id :: rest := by
  induction rest with
  | nil =>
    intro id fuel h hfuel
    obtain ⟨c, hc, hp⟩ := h
    cases fuel with
    | zero => simp at hfuel
    | succ n => simp [walkParents, hc, hp]
  | cons p rest' ih =>
    intro id fuel h hfuel
    obtain ⟨⟨c, hc, hp⟩, hrest⟩ := h
    cases fuel with
    | zero => simp at hfuel
    | succ n =>
      have := ih p n hrest (by simp at hfuel ⊢; omega)
      simp [walkParents, hc, hp, this]

theorem parents_of_linked (commits : List git_commit) (acc : List git_oid) (h : Linked commits acc) :
    ∀ id ∈ acc, ∃ c, commits[id]? = some c ∧ c.parents.length ≤ 1 := by
  induction acc with
  | nil => intro id hid; simp at hid
  | cons a rest ih =>
    intro id hid
    cases rest with
    | nil =>
      obtain ⟨c, hc, hp⟩ := h
      simp only [List.mem_singleton] at hid
      subst hid
      exact ⟨c, hc, by simp [hp]⟩
    | cons p rest' =>
      obtain ⟨⟨c, hc, hp⟩, hrest⟩ := h
      rcases List.mem_cons.1 hid with hid | hid
      · subst hid
        exact ⟨c, hc, by simp [hp]⟩
      · exact ih hrest id hid

theorem Chain_of_same (repo repo1 : git_repository) (acc : List git_oid)
    (hc : repo1.commits = repo.commits) (hh : repo1.HEAD = repo.HEAD) (h : Chain repo acc) :
    Chain repo1 acc := by
  cases acc with
  | nil =>
    unfold Chain tip at *
    rw [hc, hh]
    exact h
  | cons id rest =>
    unfold Chain at *
    rw [hc, hh]
    exact h

theorem Chain_commit (g g1 : GitAPI) (depotPath cl user email desc : Str)
    (timezone timestamp : Int) (id : git_oid) (acc : List git_oid)
    (h : Commit g depotPath cl user email timezone desc timestamp = .ok (id, g1))
    (hacc : Chain g.m_Repo acc) : Chain g1.m_Repo (id :: acc) := by
  obtain ⟨idx, msg, _, hid, _, hg1⟩ := Commit_ok g g1 depotPath cl user email desc timezone timestamp id h
  subst hg1
  subst hid
  cases acc with
  | nil =>
    unfold Chain at hacc
    refine ⟨rfl, ?_⟩
    unfold Linked
    refine ⟨_, List.getElem?_concat_length _ _, ?_⟩
    simp [hacc]
  | cons t rest =>
    obtain ⟨hH, hL⟩ := hacc
    refine ⟨rfl, ?_⟩
    have htip : tip g.m_Repo = some t := by
      unfold tip
      rw [hH]
      have : t < g.m_Repo.commits.length := by
        obtain ⟨c, hc, _⟩ := parents_of_linked _ _ hL t (List.mem_cons_self _ _)
        by_contra hge
        rw [List.getElem?_eq_none (Nat.le_of_not_lt hge)] at hc
        exact Option.noConfusion hc
      simp [this]
    refine ⟨⟨_, List.getElem?_concat_length _ _, ?_⟩, Linked_append _ _ _ hL⟩
    simp [htip]

theorem CreateIndex_repo (g g1 : GitAPI) (h : CreateIndex g = .ok g1) : g1.m_Repo = g.m_Repo := by
  unfold CreateIndex at h
  simp only [git_repository_index, GIT2, bind, Except.bind, pure, Except.pure] at h
  split at h
  · exact Except.noConfusion h
  · split at h
    · exact Except.noConfusion h
    · rename_i b hb
      cases b with
      | false =>
        simp only [Bool.false_eq_true, if_false] at h
        injection h with h
        rw [← h]
      | true =>
        simp only [if_true] at h
        repeat' split at h
        all_goals first
          | exact Except.noConfusion h
          | (injection h with h; rw [← h])

theorem AddFileToIndex_repo (Erase : Str → Str → Str) (g g1 : GitAPI) (depotPath depotFile : Str)
    (oid : git_oid) (plusx : Bool)
    (h : AddFileToIndex Erase g depotPath depotFile oid plusx = .ok g1) :
    g1.m_Repo = g.m_Repo := by
  unfold AddFileToIndex at h
  rw [substr_zero] at h
  simp only [GIT2, bind, Except.bind, pure, Except.pure] at h
  repeat' split at h
  all_goals first
    | exact Except.noConfusion h
    | (injection h with h; rw [← h])

theorem RemoveFileFromIndex_repo (Erase : Str → Str → Str) (g g1 : GitAPI)
    (depotPath depotFile : Str) (h : RemoveFileFromIndex Erase g depotPath depotFile = .ok g1) :
    g1.m_Repo = g.m_Repo := by
  unfold RemoveFileFromIndex at h
  rw [substr_zero] at h
  simp only [GIT2, bind, Except.bind, pure, Except.pure] at h
  repeat' split at h
  all_goals first
    | exact Except.noConfusion h
    | (injection h with h; rw [← h])

theorem CloseIndex_repo (g g1 : GitAPI) (h : CloseIndex g = .ok g1) :
    g1.m_Repo.commits = g.m_Repo.commits ∧ g1.m_Repo.HEAD = g.m_Repo.HEAD := by
  unfold CloseIndex at h
  cases hidx : g.m_Index with
  | none =>
    rw [hidx] at h
    simp [git_index_write, GIT2, GIT_ERROR, bind, Except.bind] at h
  | some idx =>
    rw [hidx] at h
    simp [git_index_write, GIT2, bind, Except.bind, pure, Except.pure] at h
    rw [← h]
    exact ⟨rfl, rfl⟩

/-- One call keeps the history a chain; a `Commit` puts its commit in front. -/
theorem Chain_run (Erase : Str → Str → Str) (g g1 : GitAPI) (c : Call) (o : Option git_oid)
    (acc : List git_oid) (h : c.run Erase g = .ok (o, g1)) (hacc : Chain g.m_Repo acc) :
    Chain g1.m_Repo (o.toList ++ acc) ∧ o.isSome = c.isCommit := by
  cases c with
  | CreateIndex =>
    simp only [Call.run, bind, Except.bind, pure, Except.pure] at h
    cases hc : CreateIndex g with
    | error e => rw [hc] at h; exact Except.noConfusion h
    | ok g2 =>
      rw [hc] at h
      injection h with h
      injection h with h1 h2
      subst h1 h2
      have := CreateIndex_repo g g2 hc
      exact ⟨Chain_of_same _ _ _ (by rw [this]) (by rw [this]) hacc, rfl⟩
  | AddFileToIndex depotPath depotFile oid plusx =>
    simp only [Call.run, bind, Except.bind, pure, Except.pure] at h
    cases hc : AddFileToIndex Erase g depotPath depotFile oid plusx with
    | error e => rw [hc] at h; exact Except.noConfusion h
    | ok g2 =>
      rw [hc] at h
      injection h with h
      injection h with h1 h2
      subst h1 h2
      have := AddFileToIndex_repo Erase g g2 _ _ _ _ hc
      exact ⟨Chain_of_same _ _ _ (by rw [this]) (by rw [this]) hacc, rfl⟩
  | RemoveFileFromIndex depotPath depotFile =>
    simp only [Call.run, bind, Except.bind, pure, Except.pure] at h
    cases hc : RemoveFileFromIndex Erase g depotPath depotFile with
    | error e => rw [hc] at h; exact Except.noConfusion h
    | ok g2 =>
      rw [hc] at h
      injection h with h
      injection h with h1 h2
      subst h1 h2
      have := RemoveFileFromIndex_repo Erase g g2 _ _ hc
      exact ⟨Chain_of_same _ _ _ (by rw [this]) (by rw [this]) hacc, rfl⟩
  | Commit depotPath cl user email timezone desc timestamp =>
    simp only [Call.run, bind, Except.bind, pure, Except.pure] at h
    cases hc : Commit g depotPath cl user email timezone desc timestamp with
    | error e => rw [hc] at h; exact Except.noConfusion h
    | ok r =>
      obtain ⟨id, g2⟩ := r
      rw [hc] at h
      injection h with h
      injection h with h1 h2
      subst h1 h2
      exact ⟨Chain_commit g g2 _ _ _ _ _ _ _ id acc hc hacc, rfl⟩
  | CloseIndex =>
    simp only [Call.run, bind, Except.bind, pure, Except.pure] at h
    cases hc : CloseIndex g with
    | error e => rw [hc] at h; exact Except.noConfusion h
    | ok g2 =>
      rw [hc] at h
      injection h with h
      injection h with h1 h2
      subst h1 h2
      have := CloseIndex_repo g g2 hc
      exact ⟨Chain_of_same _ _ _ this.1 this.2 hacc, rfl⟩

/-- A run of calls keeps the history a chain, extended by the commits made. -/
theorem Chain_runCalls (Erase : Str → Str → Str) (calls : List Call) :
    ∀ (g g1 : GitAPI) (ids acc : List git_oid), runCalls Erase g calls = .ok (ids, g1) →
      Chain g.m_Repo acc →
      Chain g1.m_Repo (ids.reverse ++ acc) ∧ ids.length = (calls.filter Call.isCommit).length := by
  induction calls with
  | nil =>
    intro g g1 ids acc h hacc
    simp only [runCalls] at h
    injection h with h
    injection h with h1 h2
    subst h1 h2
    exact ⟨hacc, rfl⟩
  | cons c cs ih =>
    intro g g1 ids acc h hacc
    simp only [runCalls, bind, Except.bind, pure, Except.pure] at h
    cases hc : c.run Erase g with
    | error e => rw [hc] at h; exact Except.noConfusion h
    | ok r =>
      obtain ⟨o, g2⟩ := r
      rw [hc] at h
      simp only at h
      cases hcs : runCalls Erase g2 cs with
      | error e => rw [hcs] at h; exact Except.noConfusion h
      | ok r2 =>
        obtain ⟨ids2, g3⟩ := r2
        rw [hcs] at h
        injection h with h
        injection h with h1 h2
        subst h1 h2
        obtain ⟨hchain, hsome⟩ := Chain_run Erase g g2 c o acc hc hacc
        obtain ⟨hchain2, hlen⟩ := ih g2 g3 ids2 (o.toList ++ acc) hcs hchain
        constructor
        · have e : (o.toList ++ ids2).reverse ++ acc = ids2.reverse ++ (o.toList ++ acc) := by
            cases o <;> simp
          rw [e]
          exact hchain2
        · cases o with
          | none =>
            have : c.isCommit = false := by simpa using hsome.symm
            simp [List.filter_cons, this, hlen]
          | some id =>
            have : c.isCommit = true := by simpa using hsome.symm
            simp [List.filter_cons, this, hlen]

/-- C6: linear history. A commit created by `GitAPI::Commit` has the tip at
call time as its only parent when there is a tip and no parent when there
is none, and it becomes the tip. Hence, when a run of calls on a repository
without a tip succeeds, the `Commit` calls among them returning `ids`, one
id per `Commit` call: walking parent links from the tip visits exactly
`ids` in reverse order, with any fuel of at least that many steps, and each
of these commits has at most one parent. -/
theorem linear_history (Erase : Str → Str → Str) :
    (∀ (g g1 : GitAPI) (depotPath cl user email desc : Str) (timezone timestamp : Int)
        (id : git_oid), Commit g depotPath cl user email timezone desc timestamp = .ok (id, g1) →
        (∃ c, g1.m_Repo.commits[id]? = some c ∧ c.parents = (tip g.m_Repo).toList)
          ∧ tip g1.m_Repo = some id)
      ∧ (∀ (g g1 : GitAPI) (calls : List Call) (ids : List git_oid), tip g.m_Repo = none →
        runCalls Erase g calls = .ok (ids, g1) →
        ids.length = (calls.filter Call.isCommit).length
          ∧ (∀ fuel, ids.length ≤ fuel → history g1.m_Repo fuel = ids.reverse)
          ∧ (∀ id ∈ ids, ∃ c, g1.m_Repo.commits[id]? = some c ∧ c.parents.length ≤ 1)) := by
  constructor
  · intro g g1 depotPath cl user email desc timezone timestamp id h
    obtain ⟨idx, msg, _, hid, _, hg1⟩ :=
      Commit_ok g g1 depotPath cl user email desc timezone timestamp id h
    subst hg1
    subst hid
    refine ⟨⟨_, List.getElem?_concat_length _ _, rfl⟩, ?_⟩
    simp [tip]
  · intro g g1 calls ids hno h
    obtain ⟨hchain, hlen⟩ := Chain_runCalls Erase calls g g1 ids [] h hno
    rw [List.append_nil] at hchain
    refine ⟨hlen, ?_, ?_⟩
    · intro fuel hfuel
      cases hr : ids.reverse with
      | nil =>
        rw [hr] at hchain
        unfold history
        rw [show tip g1.m_Repo = none from hchain]
      | cons t rest =>
        rw [hr] at hchain
        obtain ⟨hH, hL⟩ := hchain
        have hlt : t < g1.m_Repo.commits.length := by
          obtain ⟨c, hc, _⟩ := parents_of_linked _ _ hL t (List.mem_cons_self _ _)
          by_contra hge
          rw [List.getElem?_eq_none (Nat.le_of_not_lt hge)] at hc
          exact Option.noConfusion hc
        unfold history tip
        rw [hH]
        simp only [if_pos hlt]
        apply walk_of_linked _ _ _ _ hL
        rw [← hr, List.length_reverse]
        exact hfuel
    · intro id hid
      have hL : Linked g1.m_Repo.commits ids.reverse := by
        cases hr : ids.reverse with
        | nil => trivial
        | cons t rest =>
          rw [hr] at hchain
          exact hchain.2
      exact parents_of_linked _ _ hL id (List.mem_reverse.2 hid)

/-- C6, on the two changelists of `scenario`, run on a fresh repository: the
commits 0 and 1 are created and the walk from the tip visits 1, then 0. -/
theorem linear_history_witness :
    (tip fresh.m_Repo = none ∧ runCalls eraseLeading fresh scenario = .ok ([0, 1], scenarioEnd))
    ∧ ([0, 1].length = (scenario.filter Call.isCommit).length
      ∧ (∀ fuel, [0, 1].length ≤ fuel → history scenarioEnd.m_Repo fuel = [0, 1].reverse)
      ∧ (∀ id ∈ [0, 1], ∃ c, scenarioEnd.m_Repo.commits[id]? = some c ∧ c.parents.length ≤ 1)) :=
  ⟨⟨by decide, by decide⟩,
    (linear_history eraseLeading).2 fresh scenarioEnd scenario [0, 1] (by decide) (by decide)⟩
end P4Fusion
